import Mathlib

/-!
Shallow embedding of the Tuture CLI core (src/lib/utils.js and the Git
interaction layer) and proofs about its step-synchronization behaviour.

JavaScript strings are modelled as Lean `String`s; the handful of JS string
primitives the code uses (`slice`, `startsWith`, `split`, `trim`, `includes`,
`replace`, `path.basename`) are modelled explicitly over the underlying
character list so that every definition is executable and kernel-reducible.

Asynchronous subprocess calls (`runGitCommand`) are modelled as values of
`Except String α`: a resolved promise is `.ok`, a rejected one is
`.error stderr`. `Promise.all` over a list of already-issued fetches is
modelled by `sequenceEx`, which fails as soon as any element has failed.
-/

/-- Model of `startsWith`: `startsWithL pat s` is true iff `pat` is a prefix
of `s` (JS `s.startsWith(pat)` with `pat` as the first argument here). -/
def startsWithL : List Char → List Char → Bool
  | [], _ => true
  | _ :: _, [] => false
  | p :: ps, c :: cs => p = c && startsWithL ps cs

/-- Model of JS `String.prototype.startsWith`. -/
def jsStartsWith (s pat : String) : Bool :=
  startsWithL pat.data s.data

/-- Model of JS `String.prototype.slice(a, b)` for `0 ≤ a ≤ b`:
take the first `b` characters, then drop the first `a`. -/
def jsSlice (s : String) (a b : Nat) : String :=
  ⟨(s.data.take b).drop a⟩

/-- Model of JS `String.prototype.trim`: strip whitespace from both ends.
Lean's `Char.isWhitespace` (space, tab, CR, LF) covers every whitespace
character that occurs in `git` output. -/
def jsTrim (s : String) : String :=
  ⟨((s.data.dropWhile Char.isWhitespace).reverse.dropWhile Char.isWhitespace).reverse⟩

/-- Model of JS `split('\n')` (single-newline separator), on character lists.
`splitNl s` cuts `s` at every newline; like in JS, a trailing newline
produces a trailing empty piece. -/
def splitNl : List Char → List (List Char)
  | [] => [[]]
  | '\n' :: rest => [] :: splitNl rest
  | c :: cs =>
    match splitNl cs with
    | [] => [[c]]
    | t :: ts => (c :: t) :: ts

/-- Model of JS `split('\n\n')` (blank-line separator), on character lists. -/
def splitNN : List Char → List (List Char)
  | [] => [[]]
  | '\n' :: '\n' :: rest => [] :: splitNN rest
  | c :: cs =>
    match splitNN cs with
    | [] => [[c]]
    | t :: ts => (c :: t) :: ts

/-- Model of JS `String.prototype.includes`: does `pat` occur in the list? -/
def containsL (pat : List Char) : List Char → Bool
  | [] => pat.isEmpty
  | c :: cs => startsWithL pat (c :: cs) || containsL pat cs

/-- Model of JS `String.prototype.includes` on strings. -/
def jsIncludes (s pat : String) : Bool :=
  containsL pat.data s.data

/-- Model of JS `String.prototype.replace(pat, '')` with a string pattern:
remove the leftmost occurrence of `pat`, if any (JS `replace` with a string
first argument replaces only the first occurrence). -/
def stripFirstL (pat : List Char) : List Char → List Char
  | [] => []
  | c :: cs =>
    if startsWithL pat (c :: cs) then (c :: cs).drop pat.length
    else c :: stripFirstL pat cs

/-- Model of JS `s.replace(pat, '')` on strings. -/
def jsReplaceEmpty (s pat : String) : String :=
  ⟨stripFirstL pat.data s.data⟩

/-- Model of Node's `path.basename` (posix): the part after the last `/`.
(The trailing-slash special case of Node does not arise: the inputs are
file paths printed by `git show --name-only`, which never end in `/`.) -/
def jsBasename (s : String) : String :=
  ⟨(s.data.reverse.takeWhile (fun c => c != '/')).reverse⟩

/-- `Promise.all` over a list of already-settled promises: succeed with the
list of results iff every element succeeded, otherwise fail. -/
def sequenceEx {α : Type} : List (Except String α) → Except String (List α)
  | [] => .ok []
  | x :: xs =>
    match x with
    | .error e => .error e
    | .ok a =>
      match sequenceEx xs with
      | .error e => .error e
      | .ok as => .ok (a :: as)

/-- One file entry of a step's diff list, as produced by `getGitDiff`
(attrs `file`, `explain`, and optional `collapse`; freshly computed entries
carry only `file`, modelled by the empty/false defaults). -/
structure FileDiff where
  file : String
  explain : String := ""
  collapse : Bool := false
deriving Repr, DecidableEq

/-- One tutorial step: a commit's message, its short hash, the user-editable
explanation and the list of file diffs. A freshly computed step has no
explanation yet (modelled by the empty default). -/
structure Step where
  name : String
  commit : String
  explain : String := ""
  diff : List FileDiff
deriving Repr, DecidableEq

/-- The root persisted tutorial object (the contents of `tuture.yml`). -/
structure Tuture where
  name : String
  version : String
  language : String
  topics : List String := []
  email : String := ""
  steps : List Step := []
deriving Repr, DecidableEq

/-- One record of the consolidated diff archive `.tuture/diff.json`:
a commit hash paired with the diff text handed to the external
`gitdiff-parser` library (the parser itself is an external collaborator
and is not modelled). -/
structure DiffRecord where
  commit : String
  diffText : String
deriving Repr, DecidableEq

/-- Contents written to a file, kept symbolic: serialization (`js-yaml`,
`JSON.stringify`) is an external collaborator, so we record which object was
serialized rather than its textual encoding. -/
inductive FileContent where
  | json (t : Tuture)
  | yml (t : Tuture)
  | diffJson (ds : List DiffRecord)
  | text (s : String)
deriving Repr, DecidableEq

/-- A file-system side effect performed by the CLI. -/
inductive FsEffect where
  | mkdir (p : String)
  | writeFile (p : String) (content : FileContent)
  | appendFile (p : String) (content : FileContent)
  | remove (p : String)
  | gitInit
deriving Repr, DecidableEq

/-- How a CLI entry point ends: `exit c` models `process.exit(c)` (reached
through `errAndExit` for `c = 1`), `done` a normal return, and `thrown e` an
exception or promise rejection the function does not handle. -/
inductive CmdOutcome where
  | exit (code : Nat)
  | done
  | thrown (msg : String)
deriving Repr, DecidableEq

/-- Static configuration of the tool: the ignore-glob list and `minimatch`
come from `config.js` and the external `minimatch` library, both outside the
embedded core, so they are parameters; `tuturePath` is the computed path of
the installed binary used in the generated hook. -/
structure Config where
  ignoreFiles : List String
  minimatchFn : String → String → Bool
  tuturePath : String

/-- Results of the external world the embedded code consults: the outcome of
each Git subprocess invocation and of reading/parsing `tuture.yml`, plus
which on-disk state the guards observe. -/
structure Env where
  suiteExists : Bool
  gitAvailable : Bool
  tutureYml : Except String Tuture
  logOutput : Except String String
  showNameOnly : String → Except String String
  showFull : String → Except String String

/-- On-disk state observed by the synchronous file checks of `initTuture`,
`appendGitignore` and the hook helpers. -/
structure FsState where
  gitRepoExists : Bool
  gitignoreExists : Bool
  gitignoreContent : String
  hookExists : Bool
  hookContent : String

/-- Root of the hidden support directory. `config.js` (which defines
`tutureRoot`) is outside the embedded sources; the code's own doc comments
and the repository's ignore rule name it `.tuture`. -/
def tutureRoot : String := ".tuture"

/-- Path of the post-commit hook, `path.join('.git', 'hooks', 'post-commit')`. -/
def hookPath : String := ".git/hooks/post-commit"

/-- The gitignore block appended for the support directory (utils.js:149). -/
def ignoreRules : String := "# Tuture supporting files\n\n.tuture\n"

/-- Model of `getGitLogs` (git layer, lines 57-65): on success the output of
`git log --oneline --no-merges` is trimmed and split on newlines; any
subprocess failure whatsoever is caught and yields the empty list. -/
def getGitLogs (logOutput : Except String String) : List String :=
  match logOutput with
  | .error _ => []
  | .ok out => (splitNl (jsTrim out).data).map String.mk

/-- The changed-file names parsed from `git show <commit> --name-only` output
(git layer, lines 86-88): the chunk after the last blank line, split on
newlines, with the final (empty) element dropped. -/
def changedFilesOf (output : String) : List String :=
  (((splitNl ((splitNN output.data).getLastD [])).map String.mk)).dropLast

/-- Pure part of `getGitDiff` (git layer, lines 85-93): keep the changed
files whose basename matches no pattern of the configured ignore list, in
their original order, each wrapped into a step diff entry. -/
def getGitDiffPure (cfg : Config) (output : String) : List FileDiff :=
  ((changedFilesOf output).filter
    (fun file => !(cfg.ignoreFiles.any (fun pat => cfg.minimatchFn (jsBasename file) pat)))).map
    (fun file => { file := file })

/-- Model of `getGitDiff`: fetch `git show <commit> --name-only` and parse;
a failed fetch rejects. -/
def getGitDiff (cfg : Config) (env : Env) (commit : String) :
    Except String (List FileDiff) :=
  (env.showNameOnly commit).map (getGitDiffPure cfg)

/-- Value of the promise `storeDiff` itself returns (git layer, lines
99-113): the function issues all full-diff fetches and attaches a `.then`
continuation to their `Promise.all`, but neither awaits nor returns that
chain, so its own promise resolves immediately and unconditionally. -/
def storeDiffResolved : Except String Unit := .ok ()

/-- The detached continuation of `storeDiff`: the `Promise.all` over the
full-diff fetches. It settles only after every fetch has settled; a single
rejected fetch rejects it, and nothing handles that rejection. -/
def storeDiffDetached (env : Env) (commits : List String) :
    Except String (List DiffRecord) :=
  sequenceEx (commits.map (fun commit =>
    (env.showFull commit).map (fun output =>
      { commit := commit,
        diffText := String.mk ((splitNN output.data).getLastD []) })))

/-- File effects of the detached continuation: `.tuture/diff.json` is
written iff every full-diff fetch succeeded; on a rejection the write is
skipped. -/
def storeDiffEffects (env : Env) (commits : List String) : List FsEffect :=
  match storeDiffDetached env commits with
  | .error _ => []
  | .ok ds => [.writeFile (tutureRoot ++ "/diff.json") (.diffJson ds)]

/-- The filtered, oldest-first commit log `makeSteps` works from
(utils.js:95-99): reverse the newest-first log and drop every line whose
message part (the slice after the 8 characters of short hash plus space)
starts with the reserved prefix `tuture:`. -/
def filteredLogs (env : Env) : List String :=
  ((getGitLogs env.logOutput).reverse).filter
    (fun log => !(jsStartsWith (jsSlice log 8 log.data.length) "tuture:"))

/-- The short commit hashes of the filtered log lines (utils.js:102). -/
def logCommits (env : Env) : List String :=
  (filteredLogs env).map (fun log => jsSlice log 0 7)

/-- The per-commit step promise of `makeSteps` (utils.js:106-113): fetch the
commit's diff summary and pair it with the message and hash sliced from its
own log line (`commits[idx]` is exactly the hash slice of `logs[idx]`). -/
def stepPromise (cfg : Config) (env : Env) (log : String) : Except String Step :=
  (getGitDiff cfg env (jsSlice log 0 7)).map (fun diff =>
    { name := jsSlice log 8 log.data.length,
      commit := jsSlice log 0 7,
      explain := "",
      diff := diff })

/-- Model of `makeSteps` (utils.js:94-114): after awaiting `storeDiff`
(whose promise always resolves at once, see `storeDiffResolved`), return the
list of per-commit step promises. -/
def makeSteps (cfg : Config) (env : Env) :
    Except String (List (Except String Step)) :=
  match storeDiffResolved with
  | .error e => .error e
  | .ok _ => .ok ((filteredLogs env).map (stepPromise cfg env))

/-- Model of `getSteps` (utils.js:119-129): `Promise.all` over the step
promises produced by `makeSteps`; a rejected fetch rejects the batch. -/
def getSteps (cfg : Config) (env : Env) : Except String (List Step) :=
  match makeSteps cfg env with
  | .error e => .error e
  | .ok ps => sequenceEx ps

/-- Effects of `writeTuture` (utils.js:135-141): write the machine-readable
mirror and the human-editable metadata file, in that order. -/
def writeTuture (t : Tuture) : List FsEffect :=
  [.writeFile (tutureRoot ++ "/tuture.json") (.json t),
   .writeFile "tuture.yml" (.yml t)]

/-- Effects of `removeTutureSuite` (utils.js:27-30): remove the metadata
file, then the support directory. -/
def removeTutureSuite : List FsEffect :=
  [.remove "tuture.yml", .remove tutureRoot]

/-- Effects of `appendGitignore` (utils.js:148-156): create `.gitignore`
with the marker block, or append the block if `.tuture` is not yet
mentioned, or do nothing. -/
def appendGitignore (st : FsState) : List FsEffect :=
  if !st.gitignoreExists then [.writeFile ".gitignore" (.text ignoreRules)]
  else if !(jsIncludes st.gitignoreContent ".tuture") then
    [.appendFile ".gitignore" (.text ("\n" ++ ignoreRules))]
  else []

/-- The generated post-commit hook script (git layer, lines 118-126). The
win32 branch only rewrites the backslashes of `tuturePath`, which is already
a configuration parameter here, so the posix shape is the general one. -/
def getGitHook (cfg : Config) : String :=
  "#!/bin/sh\n" ++ cfg.tuturePath ++ " reload\n"

/-- Effects of `appendGitHook` (git layer, lines 131-139): install the hook
if absent, append the script if present without a `tuture reload` line,
otherwise do nothing. -/
def appendGitHook (cfg : Config) (st : FsState) : List FsEffect :=
  if !st.hookExists then [.writeFile hookPath (.text (getGitHook cfg))]
  else if !(jsIncludes st.hookContent "tuture reload") then
    [.appendFile hookPath (.text (getGitHook cfg))]
  else []

/-- Effects of `removeGitHook` (git layer, lines 144-156): delete the hook
file when its content is exactly the generated script, otherwise rewrite it
with the first occurrence of the substring `tuture reload` removed. -/
def removeGitHook (cfg : Config) (st : FsState) : List FsEffect :=
  if st.hookExists then
    if st.hookContent = getGitHook cfg then [.remove hookPath]
    else [.writeFile hookPath (.text (jsReplaceEmpty st.hookContent "tuture reload"))]
  else []

/-- The body of `reloadTuture`'s merge loop (utils.js:227-233) for one newly
computed step: scan every previously saved step and replace the new step by
any old step carrying the same commit hash. The hash compared is always the
original new step's, and each match overwrites the slot, so the last
matching old step wins. -/
def mergeStep (oldSteps : List Step) (cur : Step) : Step :=
  oldSteps.foldl (fun acc old => if cur.commit = old.commit then old else acc) cur

/-- The whole merge pass of `reloadTuture` (the spec's `reconcile`): replace
each newly computed step, in place, by its previously saved version whenever
one with the same commit hash exists. -/
def reconcile (oldSteps curSteps : List Step) : List Step :=
  curSteps.map (mergeStep oldSteps)

/-- Model of `reloadTuture` (utils.js:210-238): guard on the suite and on
Git, parse `tuture.yml`, rebuild the steps, merge, and persist. A rejection
of `getSteps` is not caught anywhere in the function, so it surfaces as a
thrown outcome rather than `errAndExit`. -/
def reloadTuture (cfg : Config) (env : Env) : List FsEffect × CmdOutcome :=
  if !env.suiteExists then ([], .exit 1)
  else if !env.gitAvailable then ([], .exit 1)
  else
    match env.tutureYml with
    | .error _ => ([], .exit 1)
    | .ok tuture =>
      match getSteps cfg env with
      | .error e => ([], .thrown e)
      | .ok currentSteps =>
        let t := { tuture with steps := reconcile tuture.steps currentSteps }
        (writeTuture t, .done)

/-- Model of `initTuture` (utils.js:162-205). `meta` is the metadata object
from `promptMetaData` (the prompt library is external); `confirmRepoInit` is
the effective answer to the git-init confirmation (`options.yes` forces it
to true, a cancelled prompt counts as a refusal). `wtThrows`, `giThrows` and
`hookThrows` say whether the corresponding synchronous file operation inside
the `try` block throws; a throwing operation is modelled as contributing no
effects of its own, and the `catch` removes both support files regardless
before exiting. -/
def initTuture (cfg : Config) (env : Env) (st : FsState)
    (confirmRepoInit : Bool) (meta : Tuture)
    (wtThrows giThrows hookThrows : Bool) : List FsEffect × CmdOutcome :=
  if env.suiteExists then ([], .exit 0)
  else if !env.gitAvailable then ([], .exit 1)
  else if !st.gitRepoExists && !confirmRepoInit then ([], .exit 1)
  else
    let pre := (if st.gitRepoExists then [] else [FsEffect.gitInit]) ++
      [FsEffect.mkdir tutureRoot]
    match getSteps cfg env with
    | .error _ => (pre ++ removeTutureSuite, .exit 1)
    | .ok steps =>
      if wtThrows then (pre ++ removeTutureSuite, .exit 1)
      else
        let pre := pre ++ writeTuture { meta with steps := steps }
        if giThrows then (pre ++ removeTutureSuite, .exit 1)
        else
          let pre := pre ++ appendGitignore st
          if hookThrows then (pre ++ removeTutureSuite, .exit 1)
          else (pre ++ appendGitHook cfg st, .done)

/-- Model of `destroyTuture` (utils.js:265-288). `confirmed` is the
effective confirmation: `options.force`, or the prompt answer, where a
cancelled prompt counts as a refusal (both refusal paths reach
`errAndExit`). -/
def destroyTuture (cfg : Config) (env : Env) (st : FsState)
    (confirmed : Bool) : List FsEffect × CmdOutcome :=
  if !env.suiteExists then ([], .exit 1)
  else if !confirmed then ([], .exit 1)
  else (removeGitHook cfg st ++ removeTutureSuite, .done)

/-! ## Concrete fixtures used by the theorems below -/

/-- A previously saved step carrying user edits, for concrete checks. -/
def oldStepW : Step :=
  { name := "feat: add x", commit := "aaaaaaa",
    explain := "my explanation",
    diff := [{ file := "old.js", explain := "why", collapse := true }] }

/-- A freshly computed step matching `oldStepW` by commit hash. -/
def newStepAW : Step := { name := "feat: add x", commit := "aaaaaaa", diff := [] }

/-- A freshly computed step with no previously saved counterpart. -/
def newStepCW : Step := { name := "fix: bug", commit := "ccccccc", diff := [] }

/-- Shared concrete configuration for witnesses: no ignore patterns, hook
binary at a fixed path. -/
def cfgW : Config :=
  { ignoreFiles := [], minimatchFn := fun _ _ => false,
    tuturePath := "/app/bin/tuture" }

/-- A previously saved tutorial whose only step is `oldStepW`. -/
def tutureOldW : Tuture :=
  { name := "My Awesome Tutorial", version := "0.0.1", language := "en",
    steps := [oldStepW] }

/-- Concrete environment: an initialized suite over a two-commit history
(newest first in the log), with one changed file per commit. -/
def envW : Env :=
  { suiteExists := true, gitAvailable := true,
    tutureYml := .ok tutureOldW,
    logOutput := .ok "ccccccc fix: bug\naaaaaaa feat: add x\n",
    showNameOnly := fun _ => .ok "commit log\n\nmessage\n\na.js\n",
    showFull := fun _ => .ok "commit log\n\ndiff body" }

/-- The tutorial a first reload of `envW` persists: the step of commit
`aaaaaaa` keeps the saved user edits, the step of `ccccccc` is fresh. -/
def tutureReloadedW : Tuture :=
  { tutureOldW with
    steps := [oldStepW,
      { name := "fix: bug", commit := "ccccccc",
        diff := [{ file := "a.js" }] }] }

/-- Environment for the three-commit scenario `[A: "feat: add x",
B: "tuture: housekeeping", C: "fix: bug"]`, log listed newest first. -/
def envC4 : Env :=
  { suiteExists := true, gitAvailable := true,
    tutureYml := .error "unread",
    logOutput := .ok
      "ccccccc fix: bug\nbbbbbbb tuture: housekeeping\naaaaaaa feat: add x\n",
    showNameOnly := fun _ => .ok "commit log\n\nmessage\n\na.js\n",
    showFull := fun _ => .ok "commit log\n\ndiff body" }

/-- Configuration with one literal ignore pattern and a literal matcher. -/
def cfgIgnoreW : Config :=
  { ignoreFiles := ["secret.txt"], minimatchFn := fun base pat => base == pat,
    tuturePath := "/app/bin/tuture" }

/-- Environment identical to `envW` except that no suite is initialized. -/
def envAbsentW : Env :=
  { envW with suiteExists := false }

/-- On-disk state for concrete checks: a Git repository with no `.gitignore`
and no hook installed. -/
def stW : FsState :=
  { gitRepoExists := true, gitignoreExists := false, gitignoreContent := "",
    hookExists := false, hookContent := "" }

/-- Environment with no suite, a one-commit history and a failing
diff-summary fetch, used to exercise the rollback of `initTuture`. -/
def envFailW : Env :=
  { suiteExists := false, gitAvailable := true,
    tutureYml := .error "absent",
    logOutput := .ok "aaaaaaa feat: add x\n",
    showNameOnly := fun _ => .error "boom",
    showFull := fun _ => .ok "commit log\n\ndiff body" }

/-- Environment whose diff-summary fetches succeed while every full-diff
fetch fails, over a one-commit history and a saved tutorial. -/
def envFullFailW : Env :=
  { suiteExists := true, gitAvailable := true,
    tutureYml := .ok tutureOldW,
    logOutput := .ok "aaaaaaa feat: add x\n",
    showNameOnly := fun _ => .ok "commit log\n\nmessage\n\na.js\n",
    showFull := fun _ => .error "boom" }

/-- Environment with a one-commit history whose diff-summary fetch fails. -/
def envSummaryFailW : Env :=
  { suiteExists := true, gitAvailable := true, tutureYml := .ok tutureOldW,
    logOutput := .ok "aaaaaaa feat: add x\n",
    showNameOnly := fun _ => .error "boom",
    showFull := fun _ => .ok "commit log\n\ndiff body" }

/-- Hook state: the generated script for `cfgW` extended by a user line. -/
def stHookW : FsState :=
  { gitRepoExists := true, gitignoreExists := true, gitignoreContent := "",
    hookExists := true,
    hookContent := "#!/bin/sh\n/app/bin/tuture reload\necho hi\n" }

/-- Environment whose log subprocess fails (as it does on any non-zero
exit, for example outside a repository or before the first commit). -/
def envLogFailW : Env :=
  { suiteExists := true, gitAvailable := true, tutureYml := .ok tutureOldW,
    logOutput := .error "fatal: not a git repository",
    showNameOnly := fun _ => .ok "commit log\n\nmessage\n\na.js\n",
    showFull := fun _ => .ok "commit log\n\ndiff body" }

/-! ## Helper lemmas -/

theorem mergeStep_foldl_const (cur : Step) (l : List Step) (acc : Step)
    (h : ∀ old ∈ l, cur.commit ≠ old.commit) :
    l.foldl (fun acc old => if cur.commit = old.commit then old else acc) acc = acc := by
  induction l generalizing acc with
  | nil => rfl
  | cons x xs ih =>
    simp only [List.foldl_cons]
    rw [if_neg (h x (List.mem_cons_self x xs))]
    exact ih acc (fun old hm => h old (List.mem_cons_of_mem x hm))

theorem mergeStep_commit (oldSteps : List Step) (cur : Step) :
    (mergeStep oldSteps cur).commit = cur.commit := by
  unfold mergeStep
  suffices h : ∀ acc : Step, acc.commit = cur.commit →
      (oldSteps.foldl (fun acc old => if cur.commit = old.commit then old else acc)
        acc).commit = cur.commit from h cur rfl
  induction oldSteps with
  | nil => intro acc hacc; simpa using hacc
  | cons x xs ih =>
    intro acc hacc
    simp only [List.foldl_cons]
    by_cases hx : cur.commit = x.commit
    · rw [if_pos hx]; exact ih x hx.symm
    · rw [if_neg hx]; exact ih acc hacc

theorem mergeStep_no_match (oldSteps : List Step) (cur : Step)
    (h : ∀ s ∈ oldSteps, s.commit ≠ cur.commit) :
    mergeStep oldSteps cur = cur :=
  mergeStep_foldl_const cur oldSteps cur (fun old hm he => h old hm he.symm)

theorem mergeStep_match (oldSteps : List Step) (cur s : Step)
    (hmem : s ∈ oldSteps) (hc : s.commit = cur.commit)
    (hnodup : (oldSteps.map Step.commit).Nodup) :
    mergeStep oldSteps cur = s := by
  induction oldSteps with
  | nil => cases hmem
  | cons x xs ih =>
    rw [List.map_cons, List.nodup_cons] at hnodup
    have hx_notin : x.commit ∉ xs.map Step.commit := hnodup.1
    have hxs_nodup : (xs.map Step.commit).Nodup := hnodup.2
    rcases List.mem_cons.mp hmem with rfl | hmem2
    · -- the match is the head; no later element can match again
      unfold mergeStep
      simp only [List.foldl_cons, if_pos hc.symm]
      refine mergeStep_foldl_const cur xs s ?_
      intro old hold he
      apply hx_notin
      have hso : s.commit = old.commit := hc.trans he
      rw [hso]
      exact List.mem_map_of_mem Step.commit hold
    · -- the match is in the tail, so the head does not match
      have hxne : cur.commit ≠ x.commit := by
        intro he
        apply hx_notin
        rw [← he, ← hc]
        exact List.mem_map_of_mem Step.commit hmem2
      unfold mergeStep
      simp only [List.foldl_cons, if_neg hxne]
      exact ih hmem2 hxs_nodup

theorem reconcile_length (oldSteps curSteps : List Step) :
    (reconcile oldSteps curSteps).length = curSteps.length := by
  simp [reconcile]

theorem reconcile_commits (oldSteps curSteps : List Step) :
    (reconcile oldSteps curSteps).map Step.commit = curSteps.map Step.commit := by
  unfold reconcile
  rw [List.map_map]
  exact List.map_congr_left (fun cur _ => mergeStep_commit oldSteps cur)

theorem reconcile_idem (oldSteps curSteps : List Step)
    (h : (curSteps.map Step.commit).Nodup) :
    reconcile (reconcile oldSteps curSteps) curSteps = reconcile oldSteps curSteps := by
  unfold reconcile
  refine List.map_congr_left (fun cur hcur => ?_)
  refine mergeStep_match _ cur (mergeStep oldSteps cur) ?_ (mergeStep_commit _ _) ?_
  · exact List.mem_map_of_mem (mergeStep oldSteps) hcur
  · show ((curSteps.map (mergeStep oldSteps)).map Step.commit).Nodup
    rw [show (curSteps.map (mergeStep oldSteps)).map Step.commit
          = curSteps.map Step.commit from reconcile_commits oldSteps curSteps]
    exact h

theorem except_map_ok {α β : Type} (f : α → β) (x : Except String α) (b : β)
    (h : x.map f = .ok b) : ∃ a, x = .ok a ∧ b = f a := by
  cases x with
  | error e => simp [Except.map] at h
  | ok a =>
    refine ⟨a, rfl, ?_⟩
    simpa [Except.map] using h.symm

theorem sequenceEx_cons_ok {α : Type} (x : Except String α)
    (xs : List (Except String α)) (as : List α)
    (h : sequenceEx (x :: xs) = .ok as) :
    ∃ a as2, x = .ok a ∧ sequenceEx xs = .ok as2 ∧ as = a :: as2 := by
  cases x with
  | error e => exact absurd h (by simp [sequenceEx])
  | ok a =>
    unfold sequenceEx at h
    cases hxs : sequenceEx xs with
    | error e => rw [hxs] at h; exact absurd h (by simp)
    | ok as2 =>
      rw [hxs] at h
      simp only [Except.ok.injEq] at h
      exact ⟨a, as2, rfl, rfl, h.symm⟩

theorem sequenceEx_ok_mem {α : Type} (l : List (Except String α)) (as : List α)
    (h : sequenceEx l = .ok as) : ∀ a ∈ as, Except.ok a ∈ l := by
  induction l generalizing as with
  | nil =>
    unfold sequenceEx at h
    simp only [Except.ok.injEq] at h
    subst h
    intro a ha
    cases ha
  | cons x xs ih =>
    obtain ⟨b, as2, hx, hxs, rfl⟩ := sequenceEx_cons_ok x xs as h
    intro a ha
    rcases List.mem_cons.mp ha with rfl | ha2
    · rw [hx]; exact List.mem_cons_self _ _
    · exact List.mem_cons_of_mem x (ih as2 hxs a ha2)

theorem sequenceEx_all_ok {α β : Type} (f : α → Except String β) (g : α → β)
    (l : List α) (h : ∀ x ∈ l, f x = .ok (g x)) :
    sequenceEx (l.map f) = .ok (l.map g) := by
  induction l with
  | nil => rfl
  | cons x xs ih =>
    simp only [List.map_cons]
    unfold sequenceEx
    rw [h x (List.mem_cons_self x xs), ih (fun y hy => h y (List.mem_cons_of_mem x hy))]

theorem stepPromise_ok (cfg : Config) (env : Env) (log : String) (s : Step)
    (h : stepPromise cfg env log = .ok s) :
    s.commit = jsSlice log 0 7 ∧ s.name = jsSlice log 8 log.data.length ∧
    s.explain = "" ∧
    ∃ out, env.showNameOnly (jsSlice log 0 7) = .ok out ∧
      s.diff = getGitDiffPure cfg out := by
  unfold stepPromise at h
  obtain ⟨d, hd, rfl⟩ := except_map_ok _ _ _ h
  unfold getGitDiff at hd
  obtain ⟨out, hout, rfl⟩ := except_map_ok _ _ _ hd
  exact ⟨rfl, rfl, rfl, out, hout, rfl⟩

theorem sequence_stepPromises_commits (cfg : Config) (env : Env)
    (logs : List String) (steps : List Step)
    (h : sequenceEx (logs.map (stepPromise cfg env)) = .ok steps) :
    steps.map Step.commit = logs.map (fun log => jsSlice log 0 7) := by
  induction logs generalizing steps with
  | nil =>
    unfold sequenceEx at h
    simp only [List.map_nil] at h ⊢
    simp only [Except.ok.injEq] at h
    subst h
    rfl
  | cons log rest ih =>
    simp only [List.map_cons] at h ⊢
    obtain ⟨s, as2, hx, hxs, rfl⟩ := sequenceEx_cons_ok _ _ _ h
    simp only [List.map_cons]
    rw [(stepPromise_ok cfg env log s hx).1, ih as2 hxs]

theorem getSteps_ok_commits (cfg : Config) (env : Env) (steps : List Step)
    (h : getSteps cfg env = .ok steps) :
    steps.map Step.commit = logCommits env := by
  unfold getSteps makeSteps storeDiffResolved at h
  exact sequence_stepPromises_commits cfg env (filteredLogs env) steps h

theorem getSteps_ok_mem (cfg : Config) (env : Env) (steps : List Step)
    (h : getSteps cfg env = .ok steps) :
    ∀ s ∈ steps, ∃ log ∈ filteredLogs env, stepPromise cfg env log = .ok s := by
  intro s hs
  have hmem : Except.ok s ∈ (filteredLogs env).map (stepPromise cfg env) := by
    apply sequenceEx_ok_mem _ steps _ s hs
    unfold getSteps makeSteps storeDiffResolved at h
    exact h
  obtain ⟨log, hlog, hps⟩ := List.mem_map.mp hmem
  exact ⟨log, hlog, hps⟩

theorem getGitDiffPure_explain (cfg : Config) (output : String) :
    ∀ d ∈ getGitDiffPure cfg output, d.explain = "" := by
  intro d hd
  unfold getGitDiffPure at hd
  obtain ⟨f, hf, rfl⟩ := List.mem_map.mp hd
  rfl

theorem getSteps_ignores_tutureYml (cfg : Config) (env : Env)
    (t : Except String Tuture) :
    getSteps cfg { env with tutureYml := t } = getSteps cfg env := rfl

theorem writeTuture_inj {t s : Tuture} (h : writeTuture t = writeTuture s) :
    t = s := by
  simpa [writeTuture] using h

theorem reloadTuture_ok (cfg : Config) (env : Env) (t0 : Tuture)
    (cur : List Step)
    (hs : env.suiteExists = true) (hg : env.gitAvailable = true)
    (hyml : env.tutureYml = .ok t0) (hst : getSteps cfg env = .ok cur) :
    reloadTuture cfg env
      = (writeTuture { t0 with steps := reconcile t0.steps cur }, .done) := by
  simp [reloadTuture, hs, hg, hyml, hst]

/-! ## Claim theorems -/

/-- C1: the reload merge replaces each newly computed step whose commit hash
equals the commit hash of a previously saved step by that old step, in place
(the merged list has the same length and positions), so the old step's whole
content — explain text and file-diff list — is retained verbatim; a new step
with no prior match keeps its freshly computed version, and freshly computed
steps and their file diffs have empty explain fields. -/
theorem reconcile_replaces_matching_steps
    (oldSteps curSteps : List Step)
    (hnodup : (oldSteps.map Step.commit).Nodup) :
    (reconcile oldSteps curSteps).length = curSteps.length ∧
    (∀ (i : Nat) (hi : i < curSteps.length)
        (hi2 : i < (reconcile oldSteps curSteps).length),
      (∀ old ∈ oldSteps,
        old.commit = (curSteps.get ⟨i, hi⟩).commit →
        (reconcile oldSteps curSteps).get ⟨i, hi2⟩ = old) ∧
      ((∀ old ∈ oldSteps,
        old.commit ≠ (curSteps.get ⟨i, hi⟩).commit) →
        (reconcile oldSteps curSteps).get ⟨i, hi2⟩ = curSteps.get ⟨i, hi⟩)) ∧
    (∀ (cfg : Config) (env : Env) (steps : List Step),
      getSteps cfg env = .ok steps →
      ∀ s ∈ steps, s.explain = "" ∧ ∀ d ∈ s.diff, d.explain = "") := by
  refine ⟨reconcile_length oldSteps curSteps, ?_, ?_⟩
  · intro i hi hi2
    have hget : (reconcile oldSteps curSteps).get ⟨i, hi2⟩
        = mergeStep oldSteps (curSteps.get ⟨i, hi⟩) := by
      simp [reconcile, List.get_eq_getElem]
    constructor
    · intro old hold hc
      rw [hget]
      exact mergeStep_match oldSteps _ old hold hc hnodup
    · intro hnone
      rw [hget]
      exact mergeStep_no_match oldSteps _ hnone
  · intro cfg env steps h s hs
    obtain ⟨log, hlog, hps⟩ := getSteps_ok_mem cfg env steps h s hs
    obtain ⟨hcom, hname, hexp, out, hout, hdiff⟩ := stepPromise_ok cfg env log s hps
    exact ⟨hexp, by rw [hdiff]; exact getGitDiffPure_explain cfg out⟩

theorem reconcile_replaces_matching_steps_witness :
    (reconcile [oldStepW] [newStepAW, newStepCW]).get ⟨0, by decide⟩ = oldStepW ∧
    (reconcile [oldStepW] [newStepAW, newStepCW]).get ⟨1, by decide⟩ = newStepCW := by
  have h := reconcile_replaces_matching_steps [oldStepW] [newStepAW, newStepCW]
    (by decide)
  exact ⟨(h.2.1 0 (by decide) (by decide)).1 oldStepW (by decide) (by decide),
    (h.2.1 1 (by decide) (by decide)).2 (by decide)⟩

/-- C2: reloading twice in a row over the same commit history persists the
same tutorial: if a reload of `env` completed and wrote tutorial `t1`, then
a reload that reads back `t1` (same commit log, same diffs) writes `t1`
again, unchanged. The short hashes of the history are assumed pairwise
distinct, as Git guarantees for `--oneline` output. -/
theorem reloadTuture_idempotent (cfg : Config) (env : Env) (t1 : Tuture)
    (hnodup : (logCommits env).Nodup)
    (h1 : reloadTuture cfg env = (writeTuture t1, .done)) :
    reloadTuture cfg { env with tutureYml := .ok t1 } = (writeTuture t1, .done) := by
  cases hs : env.suiteExists with
  | false => simp [reloadTuture, hs] at h1
  | true =>
  cases hg : env.gitAvailable with
  | false => simp [reloadTuture, hs, hg] at h1
  | true =>
  cases hyml : env.tutureYml with
  | error e => simp [reloadTuture, hs, hg, hyml] at h1
  | ok t0 =>
  cases hst : getSteps cfg env with
  | error e => simp [reloadTuture, hs, hg, hyml, hst] at h1
  | ok cur =>
  simp only [reloadTuture, hs, hg, hyml, hst, Bool.not_true, Bool.false_eq_true,
    if_false, Prod.mk.injEq] at h1
  have ht1 : ({ t0 with steps := reconcile t0.steps cur } : Tuture) = t1 :=
    writeTuture_inj h1.1
  subst ht1
  have hnodup2 : (cur.map Step.commit).Nodup := by
    rw [getSteps_ok_commits cfg env cur hst]
    exact hnodup
  have hres := reloadTuture_ok cfg
      { suiteExists := true, gitAvailable := true,
        tutureYml := Except.ok { t0 with steps := reconcile t0.steps cur },
        logOutput := env.logOutput, showNameOnly := env.showNameOnly,
        showFull := env.showFull }
      { t0 with steps := reconcile t0.steps cur } cur rfl rfl rfl hst
  rw [hres]
  rw [show ({ t0 with steps := reconcile t0.steps cur } : Tuture).steps
      = reconcile t0.steps cur from rfl]
  rw [reconcile_idem t0.steps cur hnodup2]

theorem reloadTuture_idempotent_witness :
    reloadTuture cfgW
      { envW with tutureYml := .ok tutureReloadedW } =
      (writeTuture tutureReloadedW, .done) := by
  apply reloadTuture_idempotent cfgW envW tutureReloadedW (by decide)
  rfl

theorem getSteps_eq (cfg : Config) (env : Env) :
    getSteps cfg env = sequenceEx ((filteredLogs env).map (stepPromise cfg env)) := rfl

theorem sequence_stepPromises_total (cfg : Config) (env : Env)
    (logs : List String)
    (hfetch : ∀ log ∈ logs, ∃ out, env.showNameOnly (jsSlice log 0 7) = .ok out) :
    ∃ steps, sequenceEx (logs.map (stepPromise cfg env)) = .ok steps := by
  induction logs with
  | nil => exact ⟨[], rfl⟩
  | cons log rest ih =>
    obtain ⟨out, hout⟩ := hfetch log (List.mem_cons_self log rest)
    obtain ⟨steps, hsteps⟩ :=
      ih (fun l hl => hfetch l (List.mem_cons_of_mem log hl))
    have hsp : stepPromise cfg env log
        = Except.ok { name := jsSlice log 8 log.data.length,
                      commit := jsSlice log 0 7, explain := "",
                      diff := getGitDiffPure cfg out } := by
      unfold stepPromise getGitDiff
      rw [hout]
      rfl
    refine ⟨{ name := jsSlice log 8 log.data.length, commit := jsSlice log 0 7,
              explain := "", diff := getGitDiffPure cfg out } :: steps, ?_⟩
    simp only [List.map_cons]
    unfold sequenceEx
    rw [hsp, hsteps]

/-- C3: over a history of N commits none of which carries the reserved
`tuture:` marker (merge commits are already excluded by the `--no-merges`
flag of the underlying log subprocess), and whose diff-summary fetches all
succeed, step building produces exactly N steps, ordered oldest-to-newest by
reversing the newest-first log, each step identified by the 7-character hash
sliced from its own log line; distinct short hashes give pairwise distinct
step identities. -/
theorem makeSteps_produces_all_commits (cfg : Config) (env : Env)
    (hmark : ∀ log ∈ getGitLogs env.logOutput,
      jsStartsWith (jsSlice log 8 log.data.length) "tuture:" = false)
    (hfetch : ∀ log ∈ getGitLogs env.logOutput,
      ∃ out, env.showNameOnly (jsSlice log 0 7) = .ok out)
    (hnodup : ((getGitLogs env.logOutput).map
      (fun log => jsSlice log 0 7)).Nodup) :
    ∃ steps, getSteps cfg env = .ok steps ∧
      steps.length = (getGitLogs env.logOutput).length ∧
      steps.map Step.commit
        = ((getGitLogs env.logOutput).reverse).map (fun log => jsSlice log 0 7) ∧
      (steps.map Step.commit).Nodup := by
  have hfilter : filteredLogs env = (getGitLogs env.logOutput).reverse := by
    unfold filteredLogs
    refine List.filter_eq_self.mpr ?_
    intro log hlog
    rw [hmark log (List.mem_reverse.mp hlog)]
    rfl
  obtain ⟨steps, hsteps⟩ := sequence_stepPromises_total cfg env (filteredLogs env)
    (by
      intro log hlog
      exact hfetch log (List.mem_reverse.mp (hfilter ▸ hlog)))
  have hcommits : steps.map Step.commit
      = ((getGitLogs env.logOutput).reverse).map (fun log => jsSlice log 0 7) := by
    have := sequence_stepPromises_commits cfg env (filteredLogs env) steps hsteps
    rw [hfilter] at this
    exact this
  refine ⟨steps, (getSteps_eq cfg env).trans hsteps, ?_, hcommits, ?_⟩
  · have hlen := congrArg List.length hcommits
    simpa using hlen
  · rw [hcommits, List.map_reverse]
    exact List.nodup_reverse.mpr hnodup

theorem makeSteps_produces_all_commits_witness :
    ∃ steps, getSteps cfgW envW = .ok steps ∧
      steps.length = (getGitLogs envW.logOutput).length ∧
      steps.map Step.commit
        = ((getGitLogs envW.logOutput).reverse).map (fun log => jsSlice log 0 7) ∧
      (steps.map Step.commit).Nodup :=
  makeSteps_produces_all_commits cfgW envW (by decide)
    (fun log hl => ⟨"commit log\n\nmessage\n\na.js\n", rfl⟩) (by decide)

/-- C4: a commit whose message begins with the reserved marker `tuture:`
never appears as a step: on the history `[A: "feat: add x",
B: "tuture: housekeeping", C: "fix: bug"]` step building yields steps for
A and C only, in order A then C. -/
theorem makeSteps_skips_reserved_marker :
    getSteps cfgW envC4 = .ok
      [{ name := "feat: add x", commit := "aaaaaaa", explain := "",
         diff := [{ file := "a.js", explain := "", collapse := false }] },
       { name := "fix: bug", commit := "ccccccc", explain := "",
         diff := [{ file := "a.js", explain := "", collapse := false }] }] := by
  rfl

theorem getGitDiffPure_files (cfg : Config) (output : String) :
    (getGitDiffPure cfg output).map FileDiff.file
      = (changedFilesOf output).filter
        (fun file =>
          !(cfg.ignoreFiles.any (fun pat => cfg.minimatchFn (jsBasename file) pat))) := by
  unfold getGitDiffPure
  rw [List.map_map]
  exact List.map_id _

/-- C5: the diff summary of a commit is the ordered list of its changed
files with every file whose basename matches a configured ignore pattern
excluded: the kept names are a sublist (same order) of the changed files,
every kept entry matches no ignore pattern, every changed file matching no
pattern is kept, and consequently a file matching an ignore pattern never
appears in any step's diff list. -/
theorem getGitDiff_excludes_ignored (cfg : Config) :
    (∀ output : String,
      ((getGitDiffPure cfg output).map FileDiff.file).Sublist
        (changedFilesOf output) ∧
      (∀ d ∈ getGitDiffPure cfg output,
        d.file ∈ changedFilesOf output ∧
        ∀ pat ∈ cfg.ignoreFiles,
          cfg.minimatchFn (jsBasename d.file) pat = false) ∧
      (∀ file ∈ changedFilesOf output,
        (∀ pat ∈ cfg.ignoreFiles,
          cfg.minimatchFn (jsBasename file) pat = false) →
        file ∈ (getGitDiffPure cfg output).map FileDiff.file)) ∧
    (∀ (env : Env) (steps : List Step), getSteps cfg env = .ok steps →
      ∀ s ∈ steps, ∀ d ∈ s.diff, ∀ pat ∈ cfg.ignoreFiles,
        cfg.minimatchFn (jsBasename d.file) pat = false) := by
  have hmem_part : ∀ output : String, ∀ d ∈ getGitDiffPure cfg output,
      d.file ∈ changedFilesOf output ∧
      ∀ pat ∈ cfg.ignoreFiles,
        cfg.minimatchFn (jsBasename d.file) pat = false := by
    intro output d hd
    unfold getGitDiffPure at hd
    obtain ⟨f, hf, rfl⟩ := List.mem_map.mp hd
    obtain ⟨hfmem, hP⟩ := List.mem_filter.mp hf
    refine ⟨hfmem, ?_⟩
    have hany : (cfg.ignoreFiles.any
        (fun pat => cfg.minimatchFn (jsBasename f) pat)) = false := by
      simpa using hP
    intro pat hpat
    cases hfn : cfg.minimatchFn (jsBasename f) pat with
    | false => rfl
    | true =>
      have htrue := List.any_eq_true.mpr ⟨pat, hpat, hfn⟩
      rw [hany] at htrue
      cases htrue
  refine ⟨fun output => ⟨?_, hmem_part output, ?_⟩, ?_⟩
  · rw [getGitDiffPure_files]
    exact List.filter_sublist _
  · intro file hmem hprop
    have hP : (!(cfg.ignoreFiles.any
        (fun pat => cfg.minimatchFn (jsBasename file) pat))) = true := by
      cases hany : cfg.ignoreFiles.any
          (fun pat => cfg.minimatchFn (jsBasename file) pat) with
      | false => rfl
      | true =>
        obtain ⟨pat, hpat, hfn⟩ := List.any_eq_true.mp hany
        rw [hprop pat hpat] at hfn
        cases hfn
    rw [getGitDiffPure_files]
    exact List.mem_filter.mpr ⟨hmem, hP⟩
  · intro env steps h s hs d hd pat hpat
    obtain ⟨log, hlog, hps⟩ := getSteps_ok_mem cfg env steps h s hs
    obtain ⟨hcom, hname, hexp, out, hout, hdiff⟩ := stepPromise_ok cfg env log s hps
    rw [hdiff] at hd
    exact ((hmem_part out d hd).2) pat hpat

theorem getGitDiff_excludes_ignored_witness :
    "a.js" ∈ (getGitDiffPure cfgIgnoreW
      "commit log\n\nmessage\n\na.js\nsecret.txt\n").map FileDiff.file :=
  ((getGitDiff_excludes_ignored cfgIgnoreW).1
    "commit log\n\nmessage\n\na.js\nsecret.txt\n").2.2 "a.js" (by decide) (by decide)

/-- C6: invoking reload when the tutorial suite is absent, and invoking
destroy when no suite exists, are fatal: both terminate through `errAndExit`
with exit code 1 and perform no file-system effect at all — in particular
the failing destroy modifies no files, and neither is a silent no-op. -/
theorem absent_suite_is_fatal (cfg : Config) (env : Env) (st : FsState)
    (confirmed : Bool) (h : env.suiteExists = false) :
    reloadTuture cfg env = ([], .exit 1) ∧
    destroyTuture cfg env st confirmed = ([], .exit 1) := by
  constructor
  · simp [reloadTuture, h]
  · simp [destroyTuture, h]

theorem absent_suite_is_fatal_witness :
    reloadTuture cfgW envAbsentW = ([], .exit 1) ∧
    destroyTuture cfgW envAbsentW stW true = ([], .exit 1) :=
  absent_suite_is_fatal cfgW envAbsentW stW true rfl

/-- C7: initialization is atomic with respect to the suite: once the guards
have passed and the support directory has been created, if the step
extraction or any later write of the `try` block fails, the effect trace
ends by removing the metadata file and the support directory
(`removeTutureSuite`) and the process exits with code 1 — no
half-initialized suite remains. -/
theorem initTuture_rolls_back (cfg : Config) (env : Env) (st : FsState)
    (confirmRepoInit : Bool) (meta : Tuture)
    (wtThrows giThrows hookThrows : Bool)
    (hs : env.suiteExists = false) (hg : env.gitAvailable = true)
    (hrepo : st.gitRepoExists = true ∨ confirmRepoInit = true)
    (hfail : (∃ e, getSteps cfg env = .error e) ∨
      wtThrows = true ∨ giThrows = true ∨ hookThrows = true) :
    ∃ pre, initTuture cfg env st confirmRepoInit meta wtThrows giThrows hookThrows
        = (pre ++ removeTutureSuite, .exit 1) ∧
      FsEffect.mkdir tutureRoot ∈ pre := by
  have hguard : (!st.gitRepoExists && !confirmRepoInit) = false := by
    rcases hrepo with h | h <;> simp [h]
  cases hst : getSteps cfg env with
  | error e =>
    refine ⟨(if st.gitRepoExists then [] else [FsEffect.gitInit]) ++
      [FsEffect.mkdir tutureRoot], ?_, by simp⟩
    simp [initTuture, hs, hg, hguard, hst]
  | ok steps =>
    cases hwt : wtThrows with
    | true =>
      refine ⟨(if st.gitRepoExists then [] else [FsEffect.gitInit]) ++
        [FsEffect.mkdir tutureRoot], ?_, by simp⟩
      simp [initTuture, hs, hg, hguard, hst]
    | false =>
    cases hgi : giThrows with
    | true =>
      refine ⟨((if st.gitRepoExists then [] else [FsEffect.gitInit]) ++
        [FsEffect.mkdir tutureRoot]) ++
          writeTuture { meta with steps := steps }, ?_, by simp⟩
      simp [initTuture, hs, hg, hguard, hst]
    | false =>
    cases hhk : hookThrows with
    | true =>
      refine ⟨(((if st.gitRepoExists then [] else [FsEffect.gitInit]) ++
        [FsEffect.mkdir tutureRoot]) ++
          writeTuture { meta with steps := steps }) ++
            appendGitignore st, ?_, by simp⟩
      simp [initTuture, hs, hg, hguard, hst]
    | false =>
      rcases hfail with ⟨e, he⟩ | h | h | h
      · rw [hst] at he; cases he
      · rw [hwt] at h; cases h
      · rw [hgi] at h; cases h
      · rw [hhk] at h; cases h

theorem initTuture_rolls_back_witness :
    ∃ pre, initTuture cfgW envFailW stW true tutureOldW false false false
        = (pre ++ removeTutureSuite, .exit 1) ∧
      FsEffect.mkdir tutureRoot ∈ pre :=
  initTuture_rolls_back cfgW envFailW stW true tutureOldW false false false
    rfl rfl (Or.inl rfl) (Or.inl ⟨"boom", rfl⟩)

theorem sequenceEx_ok_inputs {α β : Type} (f : α → Except String β)
    (l : List α) (as : List β) (h : sequenceEx (l.map f) = .ok as) :
    ∀ x ∈ l, ∃ b, f x = .ok b := by
  induction l generalizing as with
  | nil => intro x hx; cases hx
  | cons y ys ih =>
    rw [List.map_cons] at h
    obtain ⟨b, as2, hy, hys, rfl⟩ := sequenceEx_cons_ok _ _ _ h
    intro x hx
    rcases List.mem_cons.mp hx with rfl | hx2
    · exact ⟨b, hy⟩
    · exact ih as2 hys x hx2

/-- C8 counterexample: with a single commit whose full-diff fetch fails (and
a healthy summary fetch), the promise returned by `storeDiff` still resolves
immediately, the reload completes normally and performs the metadata write,
while the detached full-diff batch rejects and the consolidated archive is
never written. A failing per-commit full-diff fetch therefore neither aborts
the synchronizer nor is awaited before the persistent-storage write,
contradicting the claim. -/
theorem storeDiff_not_awaited_counterexample :
    storeDiffResolved = .ok () ∧
    storeDiffDetached envFullFailW (logCommits envFullFailW) = .error "boom" ∧
    storeDiffEffects envFullFailW (logCommits envFullFailW) = [] ∧
    reloadTuture cfgW envFullFailW = (writeTuture tutureOldW, .done) :=
  ⟨rfl, rfl, rfl, rfl⟩

/-- C8 amended: the per-commit diff-summary fetches are all awaited before
the metadata write — a reload reaches its write only after `getSteps`
succeeded, and a single failing summary fetch rejects the whole batch, so
the reload performs no write and surfaces the rejection (fail-fast). The
full-diff fetches of the consolidated archive, however, are issued but not
awaited by the synchronizer (`storeDiff`'s own promise resolves at once):
the archive write happens in a detached continuation only once every
full-diff fetch succeeded, a failing full-diff fetch merely skips the
archive write, and the synchronizer's result never depends on those
fetches. -/
theorem diff_fetches_amended (cfg : Config) (env : Env) :
    (∀ e, getSteps cfg env = .error e →
      env.suiteExists = true → env.gitAvailable = true →
      ∀ t, env.tutureYml = .ok t →
      reloadTuture cfg env = ([], .thrown e)) ∧
    (∀ effects, reloadTuture cfg env = (effects, .done) →
      ∃ steps, getSteps cfg env = .ok steps) ∧
    (∀ commits ds, storeDiffDetached env commits = .ok ds →
      ∀ c ∈ commits, ∃ out, env.showFull c = .ok out) ∧
    (∀ commits e, storeDiffDetached env commits = .error e →
      storeDiffEffects env commits = []) ∧
    (storeDiffResolved = .ok () ∧
     ∀ f g : String → Except String String,
       getSteps cfg { env with showFull := f }
         = getSteps cfg { env with showFull := g }) := by
  refine ⟨?_, ?_, ?_, ?_, rfl, fun f g => rfl⟩
  · intro e he hs hg t hyml
    simp [reloadTuture, hs, hg, hyml, he]
  · intro effects h
    cases hs : env.suiteExists with
    | false => simp [reloadTuture, hs] at h
    | true =>
    cases hg : env.gitAvailable with
    | false => simp [reloadTuture, hs, hg] at h
    | true =>
    cases hyml : env.tutureYml with
    | error e2 => simp [reloadTuture, hs, hg, hyml] at h
    | ok t0 =>
    cases hst : getSteps cfg env with
    | error e2 => simp [reloadTuture, hs, hg, hyml, hst] at h
    | ok cur => exact ⟨cur, rfl⟩
  · intro commits ds h c hc
    unfold storeDiffDetached at h
    obtain ⟨b, hb⟩ := sequenceEx_ok_inputs _ commits ds h c hc
    obtain ⟨out, hout, hbv⟩ := except_map_ok _ _ _ hb
    exact ⟨out, hout⟩
  · intro commits e h
    simp [storeDiffEffects, h]

theorem diff_fetches_amended_witness :
    reloadTuture cfgW envSummaryFailW = ([], .thrown "boom") :=
  (diff_fetches_amended cfgW envSummaryFailW).1 "boom" rfl rfl rfl tutureOldW rfl

theorem startsWithL_append_self (l t : List Char) :
    startsWithL l (l ++ t) = true := by
  induction l with
  | nil => rfl
  | cons c cs ih => simp [startsWithL, ih]

theorem stripFirstL_append (pat a b : List Char) (hpat : pat ≠ [])
    (h : ∀ i, i < a.length →
      startsWithL pat ((a ++ (pat ++ b)).drop i) = false) :
    stripFirstL pat (a ++ (pat ++ b)) = a ++ b := by
  induction a with
  | nil =>
    simp only [List.nil_append]
    cases pat with
    | nil => exact absurd rfl hpat
    | cons p ps =>
      show stripFirstL (p :: ps) ((p :: ps) ++ b) = b
      rw [List.cons_append]
      unfold stripFirstL
      rw [show startsWithL (p :: ps) (p :: (ps ++ b)) = true from
        startsWithL_append_self (p :: ps) b]
      simp only [if_true]
      show ((p :: ps) ++ b).drop (p :: ps).length = b
      exact List.drop_left _ _
  | cons c a2 ih =>
    have h0 : startsWithL pat (c :: (a2 ++ (pat ++ b))) = false := by
      have hh := h 0 (by simp)
      simpa using hh
    show stripFirstL pat (c :: (a2 ++ (pat ++ b))) = c :: (a2 ++ b)
    unfold stripFirstL
    rw [h0]
    simp only [Bool.false_eq_true, if_false]
    congr 1
    refine ih ?_
    intro i hi
    have hh := h (i + 1) (by simpa using Nat.succ_lt_succ hi)
    simpa [List.drop_succ_cons] using hh

/-- C9 counterexample: for a hook consisting of the generated script plus a
user-added line, teardown does not strip the injected invocation line as a
whole: only the substring `tuture reload` is removed, so the rewritten hook
keeps the dangling line `/app/bin/` and differs from the hook with the
injected line (and nothing else) removed. -/
theorem removeGitHook_leaves_residue_counterexample :
    removeGitHook cfgW stHookW =
      [.writeFile hookPath (.text "#!/bin/sh\n/app/bin/\necho hi\n")] ∧
    "#!/bin/sh\n/app/bin/\necho hi\n" ≠ "#!/bin/sh\necho hi\n" := by
  constructor
  · rfl
  · decide

/-- C9 amended: on teardown the hook file is removed entirely iff its
content is exactly the generated script; otherwise the hook is rewritten
with only the first occurrence of the substring `tuture reload` removed —
everything before it (including the leading path fragment of the injected
invocation line, which therefore survives as a dangling line) and everything
after it (the user's own additions) is preserved verbatim. -/
theorem removeGitHook_amended (cfg : Config) (st : FsState) (a b : List Char)
    (hexists : st.hookExists = true) :
    (st.hookContent = getGitHook cfg →
      removeGitHook cfg st = [.remove hookPath]) ∧
    (st.hookContent ≠ getGitHook cfg →
     st.hookContent = ⟨a ++ ("tuture reload".data ++ b)⟩ →
     (∀ i, i < a.length →
       startsWithL "tuture reload".data
         ((a ++ ("tuture reload".data ++ b)).drop i) = false) →
     removeGitHook cfg st = [.writeFile hookPath (.text ⟨a ++ b⟩)]) := by
  constructor
  · intro heq
    simp [removeGitHook, hexists, heq]
  · intro hne hcontent hocc
    have hstep : removeGitHook cfg st
        = [.writeFile hookPath
            (.text (jsReplaceEmpty st.hookContent "tuture reload"))] := by
      simp [removeGitHook, hexists, hne]
    rw [hstep, hcontent]
    unfold jsReplaceEmpty
    rw [show (String.mk (a ++ ("tuture reload".data ++ b))).data
        = a ++ ("tuture reload".data ++ b) from rfl]
    rw [stripFirstL_append "tuture reload".data a b (by decide) hocc]

theorem removeGitHook_amended_witness :
    removeGitHook cfgW stHookW =
      [.writeFile hookPath (.text "#!/bin/sh\n/app/bin/\necho hi\n")] :=
  (removeGitHook_amended cfgW stHookW "#!/bin/sh\n/app/bin/".data
    "\necho hi\n".data rfl).2 (by decide) (by decide) (by decide)

/-- C10: `getGitLogs` never propagates an error: every failure of the
underlying log subprocess — any rejection, not only the no-commits-yet case
— yields the empty list, so commit listing and hence step building silently
produce zero steps instead of surfacing the subprocess error. -/
theorem getGitLogs_swallows_errors (cfg : Config) (env : Env) (e : String)
    (h : env.logOutput = .error e) :
    getGitLogs env.logOutput = [] ∧ getSteps cfg env = .ok [] := by
  constructor
  · rw [h]; rfl
  · rw [getSteps_eq]
    unfold filteredLogs
    rw [h]
    rfl

theorem getGitLogs_swallows_errors_witness :
    getGitLogs envLogFailW.logOutput = [] ∧
    getSteps cfgW envLogFailW = .ok [] :=
  getGitLogs_swallows_errors cfgW envLogFailW "fatal: not a git repository" rfl

example : jsStartsWith "tuture: housekeeping" "tuture:" = true := by decide
example : jsSlice "aaaaaaa feat: add x" 0 7 = "aaaaaaa" := by decide
example : jsSlice "aaaaaaa feat: add x" 8 19 = "feat: add x" := by decide
example : (splitNN "a\n\nb\nc\n".data).map String.mk = ["a", "b\nc\n"] := by decide
example : jsTrim " x\n" = "x" := by decide
example : jsReplaceEmpty "ab tuture reload cd" "tuture reload" = "ab  cd" := by decide
example : jsBasename "dist/bundle.js" = "bundle.js" := by decide
